import Mathlib

/-!
Shallow embedding of the covid19-mortality-rate data pipeline
(`src/data/make_dataset.py` and `src/features/build_features.py`).

Tables indexed by country are modelled as association lists
`List (String × β)`; a wide time-series table carries its date columns
(days since an arbitrary epoch, as `ℕ`) next to its rows.  Numeric cells
are `ℚ`; a pandas cell that may be NaN/missing is `Option ℚ` with `none`
for the missing value.  The feature-normalisation module works over `ℝ`
(its `mean` policy divides by a standard deviation, a square root), with
`Option ℝ` playing the same role for NaN.
-/

/-- The `ignore_countries` constant of `make_dataset.py`. -/
def ignore_countries : List String := ["Others", "Cruise Ship"]

/-- The `country_rename` dictionary of `_clean_country_list`. -/
def country_rename : List (String × String) :=
  [("Hong Kong SAR", "Hong Kong"),
   ("Taiwan*", "Taiwan"),
   ("Czechia", "Czech Republic"),
   ("Brunei", "Brunei Darussalam"),
   ("Iran (Islamic Republic of)", "Iran"),
   ("Viet Nam", "Vietnam"),
   ("Russian Federation", "Russia"),
   ("Republic of Korea", "South Korea"),
   ("Republic of Moldova", "Moldova"),
   ("China", "Mainland China")]

/-- Effect of `df.rename(country_rename, axis=0)` on a single index label: a label
that is a key of the dictionary becomes its value, any other label is
left unchanged. -/
def renameCountry (k : String) : String :=
  (country_rename.lookup k).getD k

/-- Model of `_clean_country_list`: rename the row labels via `country_rename`,
then drop the rows labelled by `ignore_countries`
(`errors='ignore'`: labels absent from the table are silently skipped). -/
def _clean_country_list {α : Type} (t : List (String × α)) : List (String × α) :=
  (t.map (fun r => (renameCountry r.1, r.2))).filter
    (fun r => !(ignore_countries.contains r.1))

/-- The `_helper` closure of `_get_most_recent_value`: keep the non-null
entries of the row; if any remain return the (positionally) last one,
otherwise return NaN (`none`). -/
def _helper (row : List (Option ℚ)) : Option ℚ :=
  let row_nn := row.filterMap id
  if row_nn.length = 0 then none else row_nn.getLast?

/-- Model of `_get_most_recent_value`: drop the 3 leading metadata columns
(`wb_series.columns[3::]`), then apply `_helper` to every row. -/
def _get_most_recent_value (rows : List (String × List (Option ℚ))) :
    List (String × Option ℚ) :=
  rows.map (fun r => (r.1, _helper (r.2.drop 3)))

/-- A raw CSSE time series: one row per sub-national entity (keyed by the
`Country/Region` column), one numeric column per date.  The `Lat`/`Long`
columns, dropped immediately after the group-by in `_rollup_by_country`,
are not represented; `dates` are the remaining date columns (as days
since an arbitrary epoch, in source column order).  A missing
sub-national cell is `none`. -/
structure RawTS where
  dates : List ℕ
  rows : List (String × List (Option ℚ))

/-- A country-level time series produced by `_rollup_by_country`:
one row per country, the same date columns. -/
structure TSFrame where
  dates : List ℕ
  rows : List (String × List ℚ)

/-- Componentwise vector addition (one component per date column). -/
def addVec (a b : List ℚ) : List ℚ :=
  List.zipWith (· + ·) a b

/-- Add one sub-national row into the accumulating country table:
if the country key is already present, add the vectors, otherwise
append a fresh row for the key. -/
def insertRow : List (String × List ℚ) → String → List ℚ → List (String × List ℚ)
  | [], k, v => [(k, v)]
  | r :: rest, k, v =>
      if r.1 = k then (r.1, addVec r.2 v) :: rest
      else r :: insertRow rest k v

/-- Model of `_rollup_by_country`: `df.groupby('Country/Region').sum()` — aggregate
the sub-national rows country by country, row order left to right, a
missing cell contributing `0` (pandas sums with `skipna`). -/
def _rollup_by_country (t : RawTS) : TSFrame :=
  { dates := t.dates,
    rows := t.rows.foldl
      (fun acc r => insertRow acc r.1 (r.2.map (fun c => c.getD 0))) [] }

/-- Specification-side sum for one country key and one date column `j`:
the sum over all sub-national rows sharing the key of their value at
column `j`, a missing entry contributing zero. -/
def groupColSum (rows : List (String × List (Option ℚ))) (k : String) (j : ℕ) : ℚ :=
  ((rows.filter (fun r => r.1 == k)).map
    (fun r => ((r.2.get? j).bind id).getD 0)).sum

/-- Effect of `df_cases[df_cases >= n].idxmin(axis=1)` on one row, presented as the
list of (date, value) pairs of that row: mask away the values below `n`,
take the minimum remaining value, and return the date of its first
occurrence (in column order); `none` when no value reaches `n`
(the all-NaN row, whose `idxmin` is null). -/
def idxminPairs (l : List (ℕ × ℚ)) (n : ℚ) : Option ℕ :=
  match ((l.filter (fun p => n ≤ p.2)).map Prod.snd).min? with
  | none => none
  | some mv =>
      ((l.filter (fun p => n ≤ p.2)).find? (fun p => p.2 == mv)).map Prod.fst

/-- The same row operation with the dates and the values as two lists. -/
def idxminGe (dates : List ℕ) (vals : List ℚ) (n : ℚ) : Option ℕ :=
  idxminPairs (dates.zip vals) n

/-- The per-row lambda of `_compute_days_since_nth_case`: `0` when the
row never qualified (null `idxmin`), otherwise
`(df_cases.columns.max() - x).days`. -/
def rawDays (dates : List ℕ) (vals : List ℚ) (n : ℚ) : ℕ :=
  match idxminGe dates vals n with
  | none => 0
  | some d => dates.max?.getD 0 - d

/-- Model of `_compute_days_since_nth_case`: the per-row days-since value for every
country, then the in-place `+= 30` adjustment for the `'Mainland China'`
label when present (the trailing `fillna(0)` is a no-op: the lambda
already mapped null to `0`). -/
def _compute_days_since_nth_case (dates : List ℕ)
    (rows : List (String × List ℚ)) (n : ℚ) : List (String × ℕ) :=
  (rows.map (fun r => (r.1, rawDays dates r.2 n))).map
    (fun r => if r.1 = "Mainland China" then (r.1, r.2 + 30) else r)

/-- Specification-side days-since value for one row: the leftmost date
(in column order) whose cumulative count reaches or exceeds `n`,
subtracted from the latest date of the table; `0` when the count never
reaches `n`. -/
def specDaysSince (dates : List ℕ) (vals : List ℚ) (n : ℚ) : ℕ :=
  match (dates.zip vals).find? (fun p => n ≤ p.2) with
  | none => 0
  | some p => dates.max?.getD 0 - p.1

/-- Line 68 of `make_dataset`: `todays_date = covid_cases_rollup.columns.max()`
— the latest date of the rolled-up cases table alone. -/
def todays_date (covid_cases_rollup : TSFrame) : Option ℕ :=
  covid_cases_rollup.dates.max?

/-- Specification-side "today": the most recent date shared by the
rolled-up cases table and the rolled-up deaths table. -/
def latestSharedDate (cases deaths : TSFrame) : Option ℕ :=
  (cases.dates.filter (fun d => deaths.dates.contains d)).max?

/-- The dropout step at the end of `make_dataset` (lines 96-100):
count the missing values of each row, collect the labels of the rows
with more than one missing value, and drop those labels. -/
def dropSparseRows (rows : List (String × List (Option ℚ))) :
    List (String × List (Option ℚ)) :=
  let to_drop :=
    (rows.filter (fun r => 1 < r.2.countP (fun v => v.isNone))).map Prod.fst
  rows.filter (fun r => !(to_drop.contains r.1))

/-- A covariate dataframe for `build_features.py`: named columns of real
cells, a NaN/missing cell being `none`. -/
structure Frame where
  cols : List (String × List (Option ℝ))

/-- Column access `df[colname]`: the column of that name (`none` models the `KeyError`
on a missing column). -/
def getCol (f : Frame) (cn : String) : Option (List (Option ℝ)) :=
  f.cols.lookup cn

/-- Column assignment `df[colname_new] = series` on the column list: replace the column of
that name if it exists, otherwise append it. -/
def setColList (cn : String) (v : List (Option ℝ)) :
    List (String × List (Option ℝ)) → List (String × List (Option ℝ))
  | [] => [(cn, v)]
  | c :: rest =>
      if c.1 = cn then (cn, v) :: rest else c :: setColList cn v rest

/-- Column assignment `df[colname_new] = series` at the frame level. -/
def setCol (f : Frame) (cn : String) (v : List (Option ℝ)) : Frame :=
  ⟨setColList cn v f.cols⟩

/-- numpy float division as it is reached by `_normalize_col`: the
denominator is a column statistic and the numerator vanishes whenever the
denominator does, so a zero denominator is always `0.0/0.0 = NaN`
(`none`); otherwise the exact real quotient. -/
noncomputable def divNaN (a b : ℝ) : Option ℝ :=
  if b = 0 then none else some (a / b)

/-- The present (non-NaN) values of a column. -/
def presentVals (xs : List (Option ℝ)) : List ℝ :=
  xs.filterMap id

/-- Series maximum `df[colname].max()`: pandas skips NaN cells; the max of an all-NaN
or empty column is itself NaN (`none`). -/
noncomputable def sMax (xs : List (Option ℝ)) : Option ℝ :=
  (presentVals xs).max?

/-- Series minimum `df[colname].min()`, with the same NaN conventions. -/
noncomputable def sMin (xs : List (Option ℝ)) : Option ℝ :=
  (presentVals xs).min?

/-- Series mean `df[colname].mean()`: the mean of the present values, NaN when none
are present. -/
noncomputable def sMean (xs : List (Option ℝ)) : Option ℝ :=
  let v := presentVals xs
  if v.length = 0 then none else some (v.sum / v.length)

/-- Series deviation `df[colname].std()`: the `ddof=1` sample standard deviation of the
present values, NaN when fewer than two are present. -/
noncomputable def sStd (xs : List (Option ℝ)) : Option ℝ :=
  let v := presentVals xs
  if v.length < 2 then none
  else some (Real.sqrt
    ((v.map (fun x => (x - v.sum / v.length) ^ 2)).sum / ((v.length : ℝ) - 1)))

/-- The `how='mean'` branch: `(df[colname] - mu) / sig` cell by cell,
NaN cells and NaN statistics propagating. -/
noncomputable def meanNormalize (xs : List (Option ℝ)) : List (Option ℝ) :=
  xs.map (fun c => c.bind (fun x =>
    (sMean xs).bind (fun mu =>
      (sStd xs).bind (fun sig => divNaN (x - mu) sig))))

/-- The `how='upper'` branch: `(df[colname] - maxval) / (maxval - minval)`
cell by cell. -/
noncomputable def upperNormalize (xs : List (Option ℝ)) : List (Option ℝ) :=
  xs.map (fun c => c.bind (fun x =>
    (sMax xs).bind (fun maxval =>
      (sMin xs).bind (fun minval => divNaN (x - maxval) (maxval - minval)))))

/-- The `how='lower'` branch: `(df[colname] - minval) / (maxval - minval)`
cell by cell. -/
noncomputable def lowerNormalize (xs : List (Option ℝ)) : List (Option ℝ) :=
  xs.map (fun c => c.bind (fun x =>
    (sMax xs).bind (fun maxval =>
      (sMin xs).bind (fun minval => divNaN (x - minval) (maxval - minval)))))

/-- Model of `_normalize_col(df, colname, how)`: dispatch on the policy string and
store the normalized column under `colname + '_normalized'`; a policy
other than the three known ones falls through the `if`/`elif` chain and
leaves the frame untouched.  `none` models the `KeyError` raised when a
recognized policy reads a column absent from the frame. -/
noncomputable def _normalize_col (f : Frame) (colname : String)
    (how : String) : Option Frame :=
  let colname_new := colname ++ "_normalized"
  if how = "mean" then
    (getCol f colname).map (fun xs => setCol f colname_new (meanNormalize xs))
  else if how = "upper" then
    (getCol f colname).map (fun xs => setCol f colname_new (upperNormalize xs))
  else if how = "lower" then
    (getCol f colname).map (fun xs => setCol f colname_new (lowerNormalize xs))
  else some f

/-- Model of `build_features`: the eight configured normalisation calls, in source
order and with the source's policies. -/
noncomputable def build_features (df : Frame) : Option Frame :=
  (_normalize_col df "days_since_first_case" "upper").bind (fun d1 =>
  (_normalize_col d1 "cpi_score_2019" "upper").bind (fun d2 =>
  (_normalize_col d2 "healthcare_oop_expenditure" "mean").bind (fun d3 =>
  (_normalize_col d3 "hospital_beds" "mean").bind (fun d4 =>
  (_normalize_col d4 "hci" "mean").bind (fun d5 =>
  (_normalize_col d5 "population_perc_over65" "mean").bind (fun d6 =>
  (_normalize_col d6 "population_perc_rural" "mean").bind (fun d7 =>
  _normalize_col d7 "population_perc_diabetic" "mean")))))))

theorem renameCountry_idem (k : String) :
    renameCountry (renameCountry k) = renameCountry k := by
  unfold renameCountry
  cases h : country_rename.lookup k with
  | none => simp [h]
  | some v =>
    have hv : (k, v) ∈ country_rename := by
      rcases List.lookup_eq_some_iff.mp h with ⟨l₁, l₂, heq, -⟩
      rw [heq]
      exact List.mem_append_right _ (List.mem_cons_self _ _)
    have hall : ∀ p ∈ country_rename, country_rename.lookup p.2 = none := by decide
    simp [h, hall _ hv]

theorem clean_cons {α : Type} (r : String × α) (t : List (String × α)) :
    _clean_country_list (r :: t) =
      if ignore_countries.contains (renameCountry r.1) then _clean_country_list t
      else (renameCountry r.1, r.2) :: _clean_country_list t := by
  simp only [_clean_country_list, List.map_cons, List.filter_cons]
  cases h : ignore_countries.contains (renameCountry r.1) <;> simp [h]

/-- C5: applying `_clean_country_list` twice yields the same table as
applying it once — the rename map is idempotent (no canonical name is
itself an alternate spelling) and the exclusion filter is idempotent. -/
theorem clean_country_list_idempotent {α : Type} (t : List (String × α)) :
    _clean_country_list (_clean_country_list t) = _clean_country_list t := by
  induction t with
  | nil => rfl
  | cons r t ih =>
    rw [clean_cons]
    cases h : ignore_countries.contains (renameCountry r.1) with
    | true => simpa [h] using ih
    | false =>
      simp only [h, Bool.false_eq_true, if_false]
      rw [clean_cons, renameCountry_idem, h]
      simp [ih]

theorem helper_eq_last_nonnull (l : List (Option ℚ)) :
    _helper l = l.reverse.findSome? id := by
  unfold _helper
  by_cases h : (l.filterMap id).length = 0
  · have hnil : l.filterMap id = [] := List.length_eq_zero.mp h
    have hall : ∀ a ∈ l, id a = none := List.filterMap_eq_nil_iff.mp hnil
    simp only [h, if_pos]
    symm
    rw [List.findSome?_eq_none_iff]
    intro x hx
    exact hall x (List.mem_reverse.mp hx)
  · rw [if_neg h, List.getLast?_eq_head?_reverse, ← List.filterMap_reverse,
      List.filterMap_head?]

/-- C1: `_get_most_recent_value` pairs every country row with the value of
the last (in existing column order) non-null column after the 3 leading
metadata columns; an all-null row yields the missing sentinel `none`,
never `0` and never an error. -/
theorem most_recent_value_spec (rows : List (String × List (Option ℚ)))
    (c : String) (vals : List (Option ℚ)) (hmem : (c, vals) ∈ rows) :
    (c, (vals.drop 3).reverse.findSome? id) ∈ _get_most_recent_value rows ∧
    ((∀ v ∈ vals.drop 3, v = none) →
      (c, (none : Option ℚ)) ∈ _get_most_recent_value rows) := by
  have h1 : (c, _helper (vals.drop 3)) ∈ _get_most_recent_value rows := by
    simpa [_get_most_recent_value] using
      List.mem_map_of_mem (f := fun r => (r.1, _helper (r.2.drop 3))) hmem
  rw [helper_eq_last_nonnull] at h1
  refine ⟨h1, fun hall => ?_⟩
  have hz : (vals.drop 3).reverse.findSome? id = none := by
    rw [List.findSome?_eq_none_iff]
    intro x hx
    exact hall x (List.mem_reverse.mp hx)
  rwa [hz] at h1

/-- C1 witness: the spec's example row `[5, null, 3, null]` (after three
metadata cells) extracts `3`, the last non-null value. -/
theorem most_recent_value_spec_witness :
    ("A", some (3 : ℚ)) ∈ _get_most_recent_value
      [("A", [some 9, some 9, some 9, some 5, none, some 3, none])] := by
  have h := (most_recent_value_spec
    [("A", [some 9, some 9, some 9, some 5, none, some 3, none])]
    "A" [some 9, some 9, some 9, some 5, none, some 3, none]
    (by decide)).1
  simpa using h

/-- C3: a row of the assembled dataset survives the dropout step at the
end of `make_dataset` exactly when it has at most one missing value;
rows with two or more missing values are dropped. -/
theorem dropout_keeps_row_iff (rows : List (String × List (Option ℚ)))
    (hnd : (rows.map Prod.fst).Nodup) (r : String × List (Option ℚ))
    (hr : r ∈ rows) :
    r ∈ dropSparseRows rows ↔ r.2.countP (fun v => v.isNone) ≤ 1 := by
  have hinj := List.inj_on_of_nodup_map hnd
  unfold dropSparseRows
  rw [List.mem_filter]
  constructor
  · rintro ⟨-, hkeep⟩
    rw [Bool.not_eq_true'] at hkeep
    by_contra hgt
    have h1 : r.1 ∈ (rows.filter
        (fun r => decide (1 < r.2.countP (fun v => v.isNone)))).map Prod.fst :=
      List.mem_map_of_mem Prod.fst (List.mem_filter.mpr
        ⟨hr, by simp only [decide_eq_true_eq]; exact Nat.lt_of_not_le hgt⟩)
    have h2 : (List.map Prod.fst (rows.filter
        (fun r => decide (1 < r.2.countP (fun v => v.isNone))))).contains r.1
          = true := by
      rw [List.contains_eq_any_beq, List.any_eq_true]
      exact ⟨r.1, h1, by simp⟩
    rw [hkeep] at h2
    exact Bool.false_ne_true h2
  · intro hle
    refine ⟨hr, ?_⟩
    rw [Bool.not_eq_true', Bool.eq_false_iff]
    intro hany
    rw [List.contains_eq_any_beq, List.any_eq_true] at hany
    rcases hany with ⟨x, hx, hbeq⟩
    rcases List.mem_map.mp hx with ⟨r', hr', hfst⟩
    rcases List.mem_filter.mp hr' with ⟨hr'mem, hcnt⟩
    have hx1 : r.1 = r'.1 := by
      have := (beq_iff_eq).mp hbeq
      rw [this, hfst]
    have : r' = r := hinj hr'mem hr hx1.symm
    rw [this] at hcnt
    have : 1 < r.2.countP (fun v => v.isNone) := by simpa using hcnt
    exact absurd hle (Nat.not_le_of_lt this)

/-- C3 witness: with one country missing a single covariate and another
missing two, the first row is retained and the condition is decidable at
the concrete table. -/
theorem dropout_keeps_row_iff_witness :
    ("A", [some (1 : ℚ), none, some 2]) ∈
      dropSparseRows [("A", [some 1, none, some 2]), ("B", [none, none, some 2])] := by
  exact (dropout_keeps_row_iff
    [("A", [some 1, none, some 2]), ("B", [none, none, some 2])]
    (by decide) ("A", [some 1, none, some 2]) (by decide)).mpr (by decide)

/-- C9: whenever `'Mainland China'` is present in the case table's index,
`_compute_days_since_nth_case` returns for it the raw per-row value plus
exactly 30, and every other country gets its raw value unadjusted. -/
theorem china_adjustment (dates : List ℕ) (rows : List (String × List ℚ))
    (n : ℚ) (vals : List ℚ) (hmem : ("Mainland China", vals) ∈ rows) :
    ("Mainland China", rawDays dates vals n + 30) ∈
      _compute_days_since_nth_case dates rows n ∧
    ∀ c vals', (c, vals') ∈ rows → c ≠ "Mainland China" →
      (c, rawDays dates vals' n) ∈ _compute_days_since_nth_case dates rows n := by
  constructor
  · have h1 := List.mem_map_of_mem (f := fun r => (r.1, rawDays dates r.2 n)) hmem
    have h2 := List.mem_map_of_mem
      (f := fun r : String × ℕ =>
        if r.1 = "Mainland China" then (r.1, r.2 + 30) else r) h1
    simpa [_compute_days_since_nth_case] using h2
  · intro c vals' hmem' hne
    have h1 := List.mem_map_of_mem (f := fun r => (r.1, rawDays dates r.2 n)) hmem'
    have h2 := List.mem_map_of_mem
      (f := fun r : String × ℕ =>
        if r.1 = "Mainland China" then (r.1, r.2 + 30) else r) h1
    simpa [_compute_days_since_nth_case, hne] using h2

/-- C9 witness: a concrete two-country table; China's row gets its raw
value (0) plus 30, the other row keeps its raw value (10). -/
theorem china_adjustment_witness :
    ("Mainland China", rawDays [0, 10] [0, 5] 1 + 30) ∈
      _compute_days_since_nth_case [0, 10]
        [("Mainland China", [0, 5]), ("A", [1, 1])] 1 ∧
    ("A", rawDays [0, 10] [1, 1] 1) ∈
      _compute_days_since_nth_case [0, 10]
        [("Mainland China", [0, 5]), ("A", [1, 1])] 1 := by
  have h := china_adjustment [0, 10]
    [("Mainland China", [0, 5]), ("A", [1, 1])] 1 [0, 5] (by decide)
  exact ⟨h.1, h.2 "A" [1, 1] (by decide) (by decide)⟩

theorem idxminPairs_of_sorted (l : List (ℕ × ℚ)) (n : ℚ)
    (h : (l.map Prod.snd).Chain' (· ≤ ·)) :
    idxminPairs l n = (l.find? (fun p => n ≤ p.2)).map Prod.fst := by
  unfold idxminPairs
  have hpw : l.Pairwise (fun p q : ℕ × ℚ => p.2 ≤ q.2) :=
    (List.pairwise_map).mp ((List.chain'_iff_pairwise).mp h)
  have hfind : l.find? (fun p => n ≤ p.2) =
      (l.filter (fun p => n ≤ p.2)).head? := (List.filter_head? _ _).symm
  have hqpw : (l.filter (fun p => n ≤ p.2)).Pairwise
      (fun p q : ℕ × ℚ => p.2 ≤ q.2) := hpw.filter _
  cases hqual : l.filter (fun p => n ≤ p.2) with
  | nil => simp [hfind, hqual]
  | cons a t =>
    rw [hqual] at hqpw
    have hub : ∀ q ∈ t, a.2 ≤ q.2 := (List.pairwise_cons.mp hqpw).1
    have hmin : ((a :: t).map Prod.snd).min? = some a.2 := by
      have hanti : Std.Antisymm ((· : ℚ) ≤ ·) :=
        ⟨fun h h' => le_antisymm h h'⟩
      rw [List.min?_eq_some_iff (fun a => le_refl a) (fun a b => min_choice a b)
        (fun a b c => le_min_iff)]
      constructor
      · exact List.mem_map_of_mem Prod.snd (List.mem_cons_self _ _)
      · intro b hb
        rcases List.mem_map.mp hb with ⟨q, hq, rfl⟩
        rcases List.mem_cons.mp hq with rfl | hq'
        · exact le_refl _
        · exact hub _ hq'
    rw [hmin]
    have hfa : List.find? (fun p : ℕ × ℚ => p.2 == a.2) (a :: t) = some a :=
      List.find?_cons_of_pos _ (by simp)
    show Option.map Prod.fst (List.find? (fun p : ℕ × ℚ => p.2 == a.2) (a :: t))
      = Option.map Prod.fst (List.find? (fun p : ℕ × ℚ => decide (n ≤ p.2)) l)
    rw [hfa, hfind, hqual]
    rfl

theorem rawDays_eq_spec (dates : List ℕ) (vals : List ℚ) (n : ℚ)
    (hmono : vals.Chain' (· ≤ ·)) (hlen : vals.length ≤ dates.length) :
    rawDays dates vals n = specDaysSince dates vals n := by
  unfold rawDays specDaysSince idxminGe
  rw [idxminPairs_of_sorted]
  · cases h : (dates.zip vals).find? (fun p => n ≤ p.2) <;> simp [h]
  · rw [List.map_snd_zip _ _ hlen]
    exact hmono

/-- C2 counterexample: a one-country table whose only row is labelled
`'Mainland China'` and is monotonically non-decreasing.  The claim says
the returned value is (latest date − leftmost date reaching the
threshold) = 5 − 0 = 5 days, but `_compute_days_since_nth_case` returns
35 because of the +30 China adjustment. -/
theorem days_since_nth_case_counterexample :
    ([(1 : ℚ), 2] : List ℚ).Chain' (· ≤ ·) ∧
    _compute_days_since_nth_case [0, 5] [("Mainland China", [1, 2])] 1
      = [("Mainland China", 35)] ∧
    specDaysSince [0, 5] [1, 2] 1 = 5 ∧ (35 : ℕ) ≠ 5 := by
  refine ⟨by norm_num [List.chain'_cons], by decide, by decide, by decide⟩

/-- C2 (amended): for every country row other than `'Mainland China'`
(which additionally receives the +30 adjustment of C9) with
monotonically non-decreasing cumulative counts,
`_compute_days_since_nth_case` pairs the country with
(latest date of the table − leftmost date whose count reaches or exceeds
the threshold `n`) in days, and with `0` when the count never reaches
the threshold. -/
theorem days_since_nth_case_spec (dates : List ℕ)
    (rows : List (String × List ℚ)) (n : ℚ) (c : String) (vals : List ℚ)
    (hmem : (c, vals) ∈ rows) (hc : c ≠ "Mainland China")
    (hmono : vals.Chain' (· ≤ ·)) (hlen : vals.length ≤ dates.length) :
    (c, specDaysSince dates vals n) ∈
      _compute_days_since_nth_case dates rows n := by
  have h1 := List.mem_map_of_mem (f := fun r => (r.1, rawDays dates r.2 n)) hmem
  have h2 := List.mem_map_of_mem
    (f := fun r : String × ℕ =>
      if r.1 = "Mainland China" then (r.1, r.2 + 30) else r) h1
  have h3 : (c, rawDays dates vals n) ∈
      _compute_days_since_nth_case dates rows n := by
    simpa [_compute_days_since_nth_case, hc] using h2
  rwa [rawDays_eq_spec dates vals n hmono hlen] at h3

/-- C2 witness: a monotone row first reaching 1 case at date 12 in a
table whose latest date is 15 gets 3 days since first case. -/
theorem days_since_nth_case_spec_witness :
    ("A", specDaysSince [10, 12, 15] [0, 3, 4] 1) ∈
      _compute_days_since_nth_case [10, 12, 15] [("A", [0, 3, 4])] 1 ∧
    specDaysSince [10, 12, 15] [0, 3, 4] 1 = 3 := by
  exact ⟨days_since_nth_case_spec [10, 12, 15] [("A", [0, 3, 4])] 1 "A"
    [0, 3, 4] (by decide) (by decide) (by norm_num [List.chain'_cons])
    (by decide), by decide⟩

/-- C7 counterexample: when the rolled-up cases table has a date the
deaths table lacks, `make_dataset` still takes the cases table's own
latest date (line 68), which differs from the most recent shared date. -/
theorem todays_date_counterexample :
    todays_date ⟨[0, 1], []⟩ = some 1 ∧
    latestSharedDate ⟨[0, 1], []⟩ ⟨[0], []⟩ = some 0 ∧
    todays_date ⟨[0, 1], []⟩ ≠ latestSharedDate ⟨[0, 1], []⟩ ⟨[0], []⟩ := by
  refine ⟨by decide, by decide, by decide⟩

/-- C7 (amended): the "today" date is the latest date of the rolled-up
cases table alone; whenever every cases-table date also appears in the
deaths table (as with the shared JHU CSSE schema), this coincides with
the most recent date shared by both tables. -/
theorem todays_date_eq_shared (casesT deathsT : TSFrame)
    (h : ∀ d ∈ casesT.dates, d ∈ deathsT.dates) :
    todays_date casesT = latestSharedDate casesT deathsT := by
  unfold todays_date latestSharedDate
  have : casesT.dates.filter (fun d => deathsT.dates.contains d)
      = casesT.dates := by
    rw [List.filter_eq_self]
    intro d hd
    rw [List.contains_eq_any_beq, List.any_eq_true]
    exact ⟨d, h d hd, by simp⟩
  rw [this]

/-- C7 witness: with identical date columns the two notions agree. -/
theorem todays_date_eq_shared_witness :
    todays_date ⟨[3, 7], []⟩ = latestSharedDate ⟨[3, 7], []⟩ ⟨[3, 7], []⟩ :=
  todays_date_eq_shared ⟨[3, 7], []⟩ ⟨[3, 7], []⟩ (by decide)

theorem insertRow_lookup_self (acc : List (String × List ℚ)) (k : String)
    (w : List ℚ) :
    (insertRow acc k w).lookup k = some (match acc.lookup k with
      | some v => addVec v w
      | none => w) := by
  induction acc with
  | nil => simp [insertRow]
  | cons r rest ih =>
    rcases r with ⟨a, b⟩
    by_cases hak : a = k
    · subst hak
      simp [insertRow, List.lookup_cons]
    · simp only [insertRow, hak, if_false]
      rw [List.lookup_cons, List.lookup_cons]
      have : (k == a) = false := beq_false_of_ne (fun hh => hak hh.symm)
      simp only [this, if_false]
      exact ih

theorem insertRow_lookup_other (acc : List (String × List ℚ)) (k q : String)
    (hne : q ≠ k) (w : List ℚ) :
    (insertRow acc k w).lookup q = acc.lookup q := by
  induction acc with
  | nil =>
    simp [insertRow, List.lookup_cons, beq_false_of_ne hne]
  | cons r rest ih =>
    rcases r with ⟨a, b⟩
    by_cases hak : a = k
    · subst hak
      have hins : insertRow ((a, b) :: rest) a w = (a, addVec b w) :: rest := by
        simp [insertRow]
      rw [hins, List.lookup_cons, List.lookup_cons]
      simp [beq_false_of_ne hne]
    · simp only [insertRow, hak, if_false]
      rw [List.lookup_cons, List.lookup_cons]
      by_cases hqa : q = a
      · subst hqa
        simp
      · have hf : (q == a) = false := beq_false_of_ne hqa
        simp only [hf]
        exact ih

theorem addVec_get? (a b : List ℚ) (j : ℕ) (hja : j < a.length)
    (hjb : j < b.length) :
    (addVec a b).get? j = some (a.getD j 0 + b.getD j 0) := by
  unfold addVec
  rw [List.get?_eq_getElem?, List.getElem?_zipWith,
    List.getElem?_eq_getElem hja, List.getElem?_eq_getElem hjb]
  simp [List.getD_eq_getElem?_getD, List.getElem?_eq_getElem, hja, hjb]

theorem addVec_getD (a b : List ℚ) (j : ℕ) (hja : j < a.length)
    (hjb : j < b.length) :
    (addVec a b).getD j 0 = a.getD j 0 + b.getD j 0 := by
  rw [List.getD_eq_get?, addVec_get? a b j hja hjb]
  rfl

theorem mapGetD (b : List (Option ℚ)) (j : ℕ) (h : j < b.length) :
    (b.map (fun c => c.getD 0)).getD j 0 = ((b.get? j).bind id).getD 0 := by
  rw [List.getD_eq_get?, List.get?_map, List.get?_eq_get h]
  simp

theorem groupColSum_cons (r : String × List (Option ℚ))
    (rest : List (String × List (Option ℚ))) (k : String) (j : ℕ) :
    groupColSum (r :: rest) k j =
      (if r.1 = k then ((r.2.get? j).bind id).getD 0 else 0)
        + groupColSum rest k j := by
  unfold groupColSum
  rw [List.filter_cons]
  by_cases h : r.1 = k
  · simp [h]
  · simp [h]

theorem rollup_fold_cell (rows : List (String × List (Option ℚ))) :
    ∀ (acc : List (String × List ℚ)) (k : String) (j : ℕ),
    (∀ r ∈ rows, j < r.2.length) →
    (∀ q v, acc.lookup q = some v → j < v.length) →
    ((rows.foldl
        (fun a r => insertRow a r.1 (r.2.map (fun c => c.getD 0)))
        acc).lookup k).bind (fun v => v.get? j)
      = match acc.lookup k with
        | some v => some (v.getD j 0 + groupColSum rows k j)
        | none =>
            if k ∈ rows.map Prod.fst then some (groupColSum rows k j)
            else none := by
  induction rows with
  | nil =>
    intro acc k j _ hacc
    simp only [List.foldl_nil]
    cases h : acc.lookup k with
    | none => simp [h, groupColSum]
    | some v =>
      have hlen := hacc k v h
      simp only [Option.some_bind]
      show v.get? j = some (v.getD j 0 + groupColSum [] k j)
      rw [List.get?_eq_getElem?, List.getElem?_eq_getElem hlen,
        List.getD_eq_getElem?_getD, List.getElem?_eq_getElem hlen]
      simp [groupColSum]
  | cons r rest ih =>
    intro acc k j hrows hacc
    rcases r with ⟨a, b⟩
    have hb : j < b.length := by
      simpa using hrows (a, b) (List.mem_cons_self _ _)
    have hrest : ∀ r ∈ rest, j < r.2.length :=
      fun r hr => hrows r (List.mem_cons_of_mem _ hr)
    have hwlen : j < (b.map (fun c => c.getD 0)).length := by simpa using hb
    have hacc' : ∀ q v,
        (insertRow acc a (b.map (fun c => c.getD 0))).lookup q = some v →
        j < v.length := by
      intro q v hv
      by_cases hqa : q = a
      · subst hqa
        rw [insertRow_lookup_self] at hv
        cases hav : acc.lookup q with
        | none =>
          rw [hav] at hv
          cases hv
          exact hwlen
        | some u =>
          rw [hav] at hv
          cases hv
          have h1 := hacc q u hav
          simp only [addVec, List.length_zipWith]
          exact lt_min h1 hwlen
      · rw [insertRow_lookup_other _ _ _ hqa] at hv
        exact hacc q v hv
    simp only [List.foldl_cons]
    rw [ih (insertRow acc a (b.map (fun c => c.getD 0))) k j hrest hacc']
    by_cases hak : a = k
    · subst hak
      rw [insertRow_lookup_self]
      cases hav : acc.lookup a with
      | none =>
        simp only [groupColSum_cons, if_pos rfl]
        rw [mapGetD b j hb]
        simp
      | some u =>
        have hu := hacc a u hav
        simp only [groupColSum_cons, if_pos rfl]
        rw [addVec_getD u _ j hu hwlen, mapGetD b j hb]
        simp [add_assoc]
    · have hka : k ≠ a := fun hh => hak hh.symm
      rw [insertRow_lookup_other _ _ _ hka]
      have hs : groupColSum ((a, b) :: rest) k j = groupColSum rest k j := by
        rw [groupColSum_cons]
        simp [hak]
      cases hav : acc.lookup k with
      | none =>
        rw [hs]
        have hiff : (k ∈ a :: List.map Prod.fst rest)
            ↔ (k ∈ List.map Prod.fst rest) := by
          simp [List.mem_cons, hka]
        exact if_congr hiff.symm rfl rfl
      | some u => simp [hs]

/-- C6: for every country key present in the raw sub-national table,
the `_rollup_by_country` output at every date column equals exactly the
sum of the sub-national values at that date over all rows sharing the
key, a missing sub-national entry contributing zero. -/
theorem rollup_additivity (t : RawTS) (k : String) (j : ℕ)
    (hk : k ∈ t.rows.map Prod.fst)
    (hrows : ∀ r ∈ t.rows, j < r.2.length) :
    ∃ v, ((_rollup_by_country t).rows.lookup k) = some v ∧
      v.get? j = some (groupColSum t.rows k j) := by
  have h0 : ∀ q v, ([] : List (String × List ℚ)).lookup q = some v →
      j < v.length := by
    intro q v hv
    simp at hv
  have h := rollup_fold_cell t.rows [] k j hrows h0
  have h2 : (((_rollup_by_country t).rows.lookup k).bind
      (fun v => v.get? j)) = if k ∈ t.rows.map Prod.fst
        then some (groupColSum t.rows k j) else none := h
  rw [if_pos hk] at h2
  cases hl : (_rollup_by_country t).rows.lookup k with
  | none =>
    rw [hl] at h2
    simp at h2
  | some v =>
    rw [hl] at h2
    exact ⟨v, rfl, by simpa using h2⟩

/-- C6 witness: two provinces of country `A` (one with a missing cell)
and one of `B`; the rolled-up value for `A` at column 0 is `1 + 2 = 3`,
the missing entry contributing zero. -/
theorem rollup_additivity_witness :
    ∃ v, ((_rollup_by_country
        ⟨[0, 1], [("A", [some 1, none]), ("A", [some 2, some 3]),
                  ("B", [none, some 4])]⟩).rows.lookup "A") = some v ∧
      v.get? 0 = some (groupColSum
        [("A", [some 1, none]), ("A", [some 2, some 3]),
         ("B", [none, some 4])] "A" 0) := by
  exact rollup_additivity
    ⟨[0, 1], [("A", [some 1, none]), ("A", [some 2, some 3]),
              ("B", [none, some 4])]⟩ "A" 0 (by decide) (by decide)

theorem lookup_setColList (l : List (String × List (Option ℝ))) (cn : String)
    (v : List (Option ℝ)) : (setColList cn v l).lookup cn = some v := by
  induction l with
  | nil => simp [setColList]
  | cons c rest ih =>
    rcases c with ⟨a, b⟩
    by_cases h : a = cn
    · simp [setColList, h, List.lookup_cons]
    · simp only [setColList, h, if_false]
      rw [List.lookup_cons]
      have hf : (cn == a) = false := beq_false_of_ne (fun hh => h hh.symm)
      simp only [hf]
      exact ih

theorem getCol_setCol_self (f : Frame) (cn : String) (v : List (Option ℝ)) :
    getCol (setCol f cn v) cn = some v :=
  lookup_setColList f.cols cn v

theorem sMax_spec {xs : List (Option ℝ)} {M : ℝ} (h : sMax xs = some M) :
    M ∈ presentVals xs ∧ ∀ x ∈ presentVals xs, x ≤ M := by
  have hanti : Std.Antisymm ((· : ℝ) ≤ ·) := ⟨fun h1 h2 => le_antisymm h1 h2⟩
  unfold sMax at h
  rw [List.max?_eq_some_iff (fun a => le_refl a) (fun a b => max_choice a b)
    (fun a b c => max_le_iff)] at h
  exact h

theorem sMin_spec {xs : List (Option ℝ)} {m : ℝ} (h : sMin xs = some m) :
    m ∈ presentVals xs ∧ ∀ x ∈ presentVals xs, m ≤ x := by
  have hanti : Std.Antisymm ((· : ℝ) ≤ ·) := ⟨fun h1 h2 => le_antisymm h1 h2⟩
  unfold sMin at h
  rw [List.min?_eq_some_iff (fun a => le_refl a) (fun a b => min_choice a b)
    (fun a b c => le_min_iff)] at h
  exact h

theorem mem_presentVals {xs : List (Option ℝ)} {i : ℕ} {x : ℝ}
    (h : xs.get? i = some (some x)) : x ∈ presentVals xs :=
  List.mem_filterMap.mpr ⟨some x, List.get?_mem h, rfl⟩

/-- C10: a policy string other than `'mean'`, `'upper'`, `'lower'` falls
through the `if`/`elif` chain of `_normalize_col`: the frame is returned
entirely unchanged, no normalized column is added and no error is
raised. -/
theorem normalize_unknown_policy_id (f : Frame) (cn : String) (how : String)
    (h1 : how ≠ "mean") (h2 : how ≠ "upper") (h3 : how ≠ "lower") :
    _normalize_col f cn how = some f := by
  simp only [_normalize_col]
  rw [if_neg h1, if_neg h2, if_neg h3]

/-- C10 witness: policy `'median'` leaves a concrete frame untouched. -/
theorem normalize_unknown_policy_id_witness :
    _normalize_col ⟨[("x", [some 1])]⟩ "x" "median"
      = some ⟨[("x", [some 1])]⟩ :=
  normalize_unknown_policy_id ⟨[("x", [some 1])]⟩ "x" "median"
    (by decide) (by decide) (by decide)

/-- C4: on a column whose maximum `M` strictly exceeds its minimum `m`,
`_normalize_col` succeeds and stores, under the `_normalized` name, a
column in which (policy `'upper'`) every present value lands in
`[-1, 0]` with the maximum input mapping to exactly `0`, and (policy
`'lower'`) every present value lands in `[0, 1]` with the minimum input
mapping to exactly `0`. -/
theorem normalize_upper_lower_bounds (f : Frame) (cn : String)
    (xs : List (Option ℝ)) (M m : ℝ)
    (hcol : getCol f cn = some xs)
    (hM : sMax xs = some M) (hm : sMin xs = some m) (hlt : m < M) :
    _normalize_col f cn "upper"
        = some (setCol f (cn ++ "_normalized") (upperNormalize xs)) ∧
    _normalize_col f cn "lower"
        = some (setCol f (cn ++ "_normalized") (lowerNormalize xs)) ∧
    getCol (setCol f (cn ++ "_normalized") (upperNormalize xs))
        (cn ++ "_normalized") = some (upperNormalize xs) ∧
    getCol (setCol f (cn ++ "_normalized") (lowerNormalize xs))
        (cn ++ "_normalized") = some (lowerNormalize xs) ∧
    (∀ i x, xs.get? i = some (some x) →
      ∃ y, (upperNormalize xs).get? i = some (some y) ∧
        -1 ≤ y ∧ y ≤ 0 ∧ (x = M → y = 0)) ∧
    (∀ i x, xs.get? i = some (some x) →
      ∃ z, (lowerNormalize xs).get? i = some (some z) ∧
        0 ≤ z ∧ z ≤ 1 ∧ (x = m → z = 0)) := by
  obtain ⟨hMmem, hMub⟩ := sMax_spec hM
  obtain ⟨hmmem, hmlb⟩ := sMin_spec hm
  have hpos : (0 : ℝ) < M - m := sub_pos.mpr hlt
  have hden : M - m ≠ 0 := ne_of_gt hpos
  refine ⟨?_, ?_, getCol_setCol_self f _ _, getCol_setCol_self f _ _, ?_, ?_⟩
  · simp only [_normalize_col]
    rw [if_neg (by decide : ("upper" : String) ≠ "mean")]
    simp [hcol]
  · simp only [_normalize_col]
    rw [if_neg (by decide : ("lower" : String) ≠ "mean"),
      if_neg (by decide : ("lower" : String) ≠ "upper")]
    simp [hcol]
  · intro i x hi
    have hmx : m ≤ x := hmlb x (mem_presentVals hi)
    have hxM : x ≤ M := hMub x (mem_presentVals hi)
    refine ⟨(x - M) / (M - m), ?_, ?_, ?_, ?_⟩
    · simp only [upperNormalize]
      rw [List.get?_map, hi]
      simp [hM, hm, divNaN, hden]
    · rw [le_div_iff hpos]
      linarith
    · rw [div_le_iff hpos]
      linarith
    · intro hx
      rw [hx, sub_self, zero_div]
  · intro i x hi
    have hmx : m ≤ x := hmlb x (mem_presentVals hi)
    have hxM : x ≤ M := hMub x (mem_presentVals hi)
    refine ⟨(x - m) / (M - m), ?_, ?_, ?_, ?_⟩
    · simp only [lowerNormalize]
      rw [List.get?_map, hi]
      simp [hM, hm, divNaN, hden]
    · exact div_nonneg (by linarith) (le_of_lt hpos)
    · rw [div_le_iff hpos]
      linarith
    · intro hx
      rw [hx, sub_self, zero_div]

/-- C4 witness: the column `[0, 1]` has minimum 0 and maximum 1; both
policies succeed and satisfy the bounds at every cell. -/
theorem normalize_upper_lower_bounds_witness :
    _normalize_col ⟨[("x", [some 0, some 1])]⟩ "x" "upper"
        = some (setCol ⟨[("x", [some 0, some 1])]⟩ ("x" ++ "_normalized")
            (upperNormalize [some 0, some 1])) ∧
    _normalize_col ⟨[("x", [some 0, some 1])]⟩ "x" "lower"
        = some (setCol ⟨[("x", [some 0, some 1])]⟩ ("x" ++ "_normalized")
            (lowerNormalize [some 0, some 1])) ∧
    getCol (setCol ⟨[("x", [some 0, some 1])]⟩ ("x" ++ "_normalized")
        (upperNormalize [some 0, some 1])) ("x" ++ "_normalized")
      = some (upperNormalize [some 0, some 1]) ∧
    getCol (setCol ⟨[("x", [some 0, some 1])]⟩ ("x" ++ "_normalized")
        (lowerNormalize [some 0, some 1])) ("x" ++ "_normalized")
      = some (lowerNormalize [some 0, some 1]) ∧
    (∀ i x, ([some 0, some 1] : List (Option ℝ)).get? i = some (some x) →
      ∃ y, (upperNormalize [some 0, some 1]).get? i = some (some y) ∧
        -1 ≤ y ∧ y ≤ 0 ∧ (x = 1 → y = 0)) ∧
    (∀ i x, ([some 0, some 1] : List (Option ℝ)).get? i = some (some x) →
      ∃ z, (lowerNormalize [some 0, some 1]).get? i = some (some z) ∧
        0 ≤ z ∧ z ≤ 1 ∧ (x = 0 → z = 0)) := by
  have hM : sMax [some (0 : ℝ), some 1] = some 1 := by
    have h : sMax [some (0 : ℝ), some 1] = some (max 0 1) := rfl
    rw [h, max_eq_right zero_le_one]
  have hm : sMin [some (0 : ℝ), some 1] = some 0 := by
    have h : sMin [some (0 : ℝ), some 1] = some (min 0 1) := rfl
    rw [h, min_eq_left zero_le_one]
  exact normalize_upper_lower_bounds ⟨[("x", [some 0, some 1])]⟩ "x"
    [some 0, some 1] 1 0 rfl hM hm (by norm_num)

/-- C8: on a zero-variance column (maximum equals minimum),
`_normalize_col` with policy `'upper'` or `'lower'` still succeeds — no
error is raised — and the stored normalized column is NaN (`none`) at
every row, the `0/0` of the unguarded division. -/
theorem normalize_degenerate_nan (f : Frame) (cn : String)
    (xs : List (Option ℝ)) (M : ℝ)
    (hcol : getCol f cn = some xs)
    (hM : sMax xs = some M) (hm : sMin xs = some M) :
    _normalize_col f cn "upper"
        = some (setCol f (cn ++ "_normalized") (upperNormalize xs)) ∧
    _normalize_col f cn "lower"
        = some (setCol f (cn ++ "_normalized") (lowerNormalize xs)) ∧
    upperNormalize xs = xs.map (fun _ => none) ∧
    lowerNormalize xs = xs.map (fun _ => none) := by
  obtain ⟨-, hMub⟩ := sMax_spec hM
  obtain ⟨-, hmlb⟩ := sMin_spec hm
  refine ⟨?_, ?_, ?_, ?_⟩
  · simp only [_normalize_col]
    rw [if_neg (by decide : ("upper" : String) ≠ "mean")]
    simp [hcol]
  · simp only [_normalize_col]
    rw [if_neg (by decide : ("lower" : String) ≠ "mean"),
      if_neg (by decide : ("lower" : String) ≠ "upper")]
    simp [hcol]
  · simp only [upperNormalize]
    apply List.map_congr_left
    intro c hc
    cases c with
    | none => rfl
    | some x =>
      have hx : x ∈ presentVals xs := List.mem_filterMap.mpr ⟨some x, hc, rfl⟩
      have hxx : x = M := le_antisymm (hMub x hx) (hmlb x hx)
      simp [hM, hm, divNaN, hxx, sub_self]
  · simp only [lowerNormalize]
    apply List.map_congr_left
    intro c hc
    cases c with
    | none => rfl
    | some x =>
      have hx : x ∈ presentVals xs := List.mem_filterMap.mpr ⟨some x, hc, rfl⟩
      have hxx : x = M := le_antisymm (hMub x hx) (hmlb x hx)
      simp [hM, hm, divNaN, hxx, sub_self]

/-- C8 witness: the constant column `[2, 2]` normalizes to all-NaN under
both policies, with no error. -/
theorem normalize_degenerate_nan_witness :
    _normalize_col ⟨[("x", [some 2, some 2])]⟩ "x" "upper"
        = some (setCol ⟨[("x", [some 2, some 2])]⟩ ("x" ++ "_normalized")
            (upperNormalize [some 2, some 2])) ∧
    _normalize_col ⟨[("x", [some 2, some 2])]⟩ "x" "lower"
        = some (setCol ⟨[("x", [some 2, some 2])]⟩ ("x" ++ "_normalized")
            (lowerNormalize [some 2, some 2])) ∧
    upperNormalize [some (2 : ℝ), some 2]
        = ([some 2, some 2] : List (Option ℝ)).map (fun _ => none) ∧
    lowerNormalize [some (2 : ℝ), some 2]
        = ([some 2, some 2] : List (Option ℝ)).map (fun _ => none) := by
  have hM : sMax [some (2 : ℝ), some 2] = some 2 := by
    have h : sMax [some (2 : ℝ), some 2] = some (max 2 2) := rfl
    rw [h, max_self]
  have hm : sMin [some (2 : ℝ), some 2] = some 2 := by
    have h : sMin [some (2 : ℝ), some 2] = some (min 2 2) := rfl
    rw [h, min_self]
  exact normalize_degenerate_nan ⟨[("x", [some 2, some 2])]⟩ "x"
    [some 2, some 2] 2 rfl hM hm
